import Mathlib

/-!
Verification of the `backlight` repository (screen-backlight device
abstraction plus a schedule-following daemon).

Shallow embedding conventions:
* Python integers are `ℤ` (or `ℕ` where the source value is a count or a
  clock minute), Python `//` on integers is `Int.fdiv` (floor division).
* The `float` arithmetic of `PercentageMap.__init__` (src/backlight/api/i2c.py)
  only ever manipulates the exact value `min(percent) + k * percent_step` with
  `percent_step = percent_span / raw_span`; we represent this accumulator
  exactly as an integer numerator over the fixed denominator `raw_span`.
  (For the concrete map shipped in the repository the binary floats are exact,
  so the representation agrees with CPython.)
* Python `round` is round-half-to-even; `roundHalfEvenFrac num d` is
  `round(num / d)` for `d > 0`.
* Fallible Python code returns `Except`; raising `ValueError` is `.error`.
* Reading the clock (`datetime.now()`) becomes an explicit parameter.
-/

/-- Python `round(num / d)` for integers `num` and `d > 0`: round half to even.
`f` is the floor of the quotient and `2 * (num - f * d)` compares the doubled
fractional part against `d`. -/
def roundHalfEvenFrac (num d : ℤ) : ℤ :=
  let f := num.fdiv d
  let r2 := 2 * (num - f * d)
  if r2 < d then f
  else if d < r2 then f + 1
  else if f % 2 = 0 then f else f + 1

/-- Python `list(range(lo, hi))` (step 1) as a list of integers. -/
def pyRange (lo hi : ℤ) : List ℤ :=
  (List.range (hi - lo).toNat).map (fun i : ℕ => lo + (i : ℤ))

/-- Python `max(l)` on a list of integers; `none` models the `ValueError`
raised on an empty sequence. -/
def pyMax : List ℤ → Option ℤ
  | [] => none
  | x :: xs => some (xs.foldl max x)

/-- Python `min(l)` on a list of integers. -/
def pyMin : List ℤ → Option ℤ
  | [] => none
  | x :: xs => some (xs.foldl min x)

/-- Python `q in range(a, b)` for a numeric `q` (int or float): membership
holds iff `q` equals some integer in the half-open interval.  A rational is
such an integer iff `a ≤ q < b` and its denominator is 1. -/
def rangeContains (a b : ℤ) (q : ℚ) : Bool :=
  decide ((a : ℚ) ≤ q) && decide (q < (b : ℚ)) && decide (q.den = 1)

/-- Python `sum(range(a, b)) / len(range(a, b))` — the arithmetic mean used by
`I2CBacklight.percent` (true division, modelled exactly in `ℚ`). -/
def rangeMean (a b : ℤ) : ℚ :=
  ((pyRange a b).sum : ℚ) / ((pyRange a b).length : ℚ)

/-- The loop body of `PercentageMap.__init__`: each raw value receives the
half-open range `[round(acc), round(acc + step))` and the unrounded
accumulator advances by the step.  `pspan / d` is the step; the accumulator
is carried as the numerator `accNum` over the fixed denominator `d`.
Entries are `(raw_value, range_start, range_stop)` in insertion order. -/
def buildEntries (pspan d : ℤ) : ℤ → List ℤ → List (ℤ × ℤ × ℤ)
  | _, [] => []
  | accNum, r :: rest =>
    (r, roundHalfEvenFrac accNum d, roundHalfEvenFrac (accNum + pspan) d)
      :: buildEntries pspan d (accNum + pspan) rest

/-- `PercentageMap(raw, percent)` from src/backlight/api/i2c.py.  `none`
models the exceptions escaping `__init__`: `max()`/`min()` on an empty
sequence, or the `ZeroDivisionError` in `percent_span / raw_span` when
`raw_span == 0`.  The map is a `dict` keyed by raw value, iterated in
insertion order; the entry list assumes distinct raw values (the source
always passes a `range`). -/
def percentageMap (raw percent : List ℤ) : Option (List (ℤ × ℤ × ℤ)) :=
  match pyMax raw, pyMin raw, pyMax percent, pyMin percent with
  | some rmax, some rmin, some pmax, some pmin =>
    let d := rmax - rmin
    if d = 0 then none
    else some (buildEntries (pmax - pmin) d (pmin * d) raw)
  | _, _, _, _ => none

/-- `PercentageMap.from_percent`: scan the ranges in insertion (raw-value)
order and return the first raw value whose range contains the percentage;
no match raises `ValueError` (modelled as `.error ()`). -/
def from_percent (entries : List (ℤ × ℤ × ℤ)) (q : ℚ) : Except Unit ℤ :=
  match entries with
  | [] => .error ()
  | (r, a, b) :: rest =>
    if rangeContains a b q then .ok r else from_percent rest q

/-- `ChrontelCH7511B.VALUES = PercentageMap(range(1, 18), range(30, 101))`. -/
def chrontelValues : Option (List (ℤ × ℤ × ℤ)) :=
  percentageMap (pyRange 1 18) (pyRange 30 101)

/-- The seventeen ranges of `ChrontelCH7511B.VALUES`, written out. -/
def chrontelEntries : List (ℤ × ℤ × ℤ) :=
  [(1, 30, 34), (2, 34, 39), (3, 39, 43), (4, 43, 48), (5, 48, 52),
   (6, 52, 56), (7, 56, 61), (8, 61, 65), (9, 65, 69), (10, 69, 74),
   (11, 74, 78), (12, 78, 82), (13, 82, 87), (14, 87, 91), (15, 91, 96),
   (16, 96, 100), (17, 100, 104)]

/-! ## Device variants (src/backlight/api/linux.py, i2c.py, xrandr.py) -/

/-- Errors surfaced by the device layer. `valueError` is Python's
`ValueError` (invalid percentage / invalid raw value). -/
inductive PyErr
  | valueError
  deriving DecidableEq, Repr

/-- State of a `LinuxBacklight`: the integer in the `brightness` file pair and
the constant `max_brightness`.  `actual_brightness` mirrors `brightness` (the
nominal behaviour of the sysfs contract), so one `raw` field models both. -/
structure LinuxState where
  raw : ℤ
  max : ℤ
  deriving DecidableEq, Repr

/-- `LinuxBacklight.percent` getter: `self.raw * 100 // self.max`. -/
def linuxPercentGet (s : LinuxState) : ℤ :=
  (s.raw * 100).fdiv s.max

/-- `LinuxBacklight.percent` setter: validate `0 <= percent <= 100`, then
`self.raw = self.max * percent // 100`; out of range raises `ValueError`
leaving the device untouched. -/
def linuxSetPercent (s : LinuxState) (p : ℤ) : Except PyErr LinuxState :=
  if 0 ≤ p ∧ p ≤ 100 then .ok { s with raw := (s.max * p).fdiv 100 }
  else .error .valueError

/-- State of an `I2CBacklight`: the byte register value and the
`PercentageMap` entries (`self.values`). -/
structure I2CState where
  raw : ℤ
  values : List (ℤ × ℤ × ℤ)
  deriving DecidableEq, Repr

/-- `I2CBacklight.percent` setter: validate `0 <= percent <= 100`, then
`self.raw = self.values.from_percent(percent)`; the resulting raw value is a
key of the map, so the `raw` setter's membership check passes.  A missed
reverse lookup raises `ValueError` as well; the register is written only on
success. -/
def i2cSetPercent (s : I2CState) (q : ℚ) : Except PyErr I2CState :=
  if 0 ≤ q ∧ q ≤ 100 then
    match from_percent s.values q with
    | .ok r => .ok { s with raw := r }
    | .error _ => .error .valueError
  else .error .valueError

/-- State of the `Xrandr` variant: the floating-point brightness multiplier
of the connected output (exactly representable values modelled in `ℚ`). -/
structure XrandrState where
  raw : ℚ
  deriving DecidableEq, Repr

/-- `Xrandr.percent` setter: `self.raw = percent / 100` — note: no range
validation at all (src/backlight/api/xrandr.py). -/
def xrandrSetPercent (_s : XrandrState) (q : ℚ) : XrandrState :=
  { raw := q / 100 }

/-! ## Schedule parsing (src/backlight/daemon.py)

Python strings are modelled as their character lists (`PyStr`), so that all
operations compute by kernel reduction; a Lean string literal `"s"` enters
the model as `"s".data`. -/

/-- A Python string, as its list of characters. -/
abbrev PyStr := List Char

/-- Split a character list at every occurrence of the separator character —
Python `s.split(sep)` / the effect of matching `%H:%M` around `':'`. -/
def splitChar (sep : Char) : PyStr → List PyStr
  | [] => [[]]
  | c :: rest =>
    let r := splitChar sep rest
    if c = sep then [] :: r
    else
      match r with
      | g :: gs => (c :: g) :: gs
      | [] => [[c]]

/-- Check that a chunk is one or two decimal digits (the regular expression
CPython's `strptime` builds for `%H` and `%M` accepts one or two digits —
zero padding is not required). -/
def isOneOrTwoDigits (s : PyStr) : Bool :=
  decide (0 < s.length) && decide (s.length ≤ 2) && s.all Char.isDigit

/-- Numeric value of a digit string. -/
def digitsVal (s : PyStr) : ℕ :=
  s.foldl (fun acc c => 10 * acc + (c.toNat - 48)) 0

/-- `datetime.strptime(s, '%H:%M').time()`.  CPython matches `%H` and `%M`
against one or two digits each, checks the ranges 0–23 and 0–59, and
requires the whole string to be consumed; any failure raises `ValueError`
(`none`). -/
def strptimeHM (s : PyStr) : Option (ℕ × ℕ) :=
  match splitChar ':' s with
  | [hs, ms] =>
    if isOneOrTwoDigits hs && isOneOrTwoDigits ms then
      let h := digitsVal hs
      let m := digitsVal ms
      if h ≤ 23 && m ≤ 59 then some (h, m) else none
    else none
  | _ => none

/-- Render a number below 100 as two decimal digits. -/
def twoDigits (n : ℕ) : PyStr :=
  [Char.ofNat (48 + n / 10), Char.ofNat (48 + n % 10)]

/-- `time.strftime('%H:%M')`: render back to a zero-padded `"HH:MM"`
string. -/
def formatHM (h m : ℕ) : PyStr :=
  twoDigits h ++ ':' :: twoDigits m

/-- Diagnostics logged by `parse_config` for dropped entries. -/
inductive ParseDiag
  | invalidTimestamp (ts : PyStr)
  | invalidPercentage (b : ℤ)
  deriving DecidableEq, Repr

/-- `parse_config` of src/backlight/daemon.py over a JSON mapping whose
values are already integers (the `int(brightness)` conversion then always
succeeds; its `TypeError`/`ValueError` branch is unreachable in this model).
Each key is parsed with `strptime('%H:%M')` and — on success — rendered
back to a zero-padded string with `strftime`; a failed parse or an
out-of-range value drops the entry with a diagnostic. -/
def parse_config : List (PyStr × ℤ) → List (PyStr × ℤ) × List ParseDiag
  | [] => ([], [])
  | (ts, b) :: rest =>
    let out := parse_config rest
    match strptimeHM ts with
    | none => (out.1, .invalidTimestamp ts :: out.2)
    | some (h, m) =>
      if 0 ≤ b ∧ b ≤ 100 then ((formatHM h m, b) :: out.1, out.2)
      else (out.1, .invalidPercentage b :: out.2)

/-! ## `get_latest` over comparable time-of-day keys

`get_latest` (identical in src/backlight/daemon.py and src/backlight.py)
sorts the schedule's `(timestamp, brightness)` pairs, keeps the last entry
whose timestamp is `<= now`, stops at the first future entry, and otherwise
falls back to the chronologically last entry; an empty schedule raises
`NoLatestEntry`.  Times-of-day are minutes since midnight (`ℕ`); `sorted()`
is a stable sort under the lexicographic tuple order, modelled by
`List.insertionSort`. -/

/-- Error raised by `get_latest` on an empty schedule. -/
inductive ScheduleErr
  | noLatestEntry
  deriving DecidableEq, Repr

/-- Lexicographic order on `(timestamp, brightness)` pairs — how Python's
`sorted` compares tuples. -/
def pairLE (a b : ℕ × ℕ) : Prop :=
  a.1 < b.1 ∨ (a.1 = b.1 ∧ a.2 ≤ b.2)

instance : DecidableRel pairLE := fun a b => by
  unfold pairLE; infer_instance

instance : IsTotal (ℕ × ℕ) pairLE :=
  ⟨fun a b => by unfold pairLE; omega⟩

instance : IsTrans (ℕ × ℕ) pairLE :=
  ⟨fun a b c => by unfold pairLE; omega⟩

/-- The `for` loop of `get_latest`: update `latest` while timestamps are
`<= now`, break at the first future timestamp. -/
def scanLatest (now : ℕ) : List (ℕ × ℕ) → Option (ℕ × ℕ) → Option (ℕ × ℕ)
  | [], latest => latest
  | (t, b) :: rest, latest =>
    if t ≤ now then scanLatest now rest (some (t, b)) else latest

/-- `get_latest(config)` with the current stripped time passed explicitly. -/
def get_latest (config : List (ℕ × ℕ)) (now : ℕ) :
    Except ScheduleErr (ℕ × ℕ) :=
  let sorted_values := List.insertionSort pairLE config
  match scanLatest now sorted_values none with
  | some latest => .ok latest
  | none =>
    match sorted_values.getLast? with
    | some last => .ok last
    | none => .error .noLatestEntry

/-! ## `get_latest` as executed by src/backlight/daemon.py

In daemon.py the schedule parsed by `parse_config` carries *string* keys
(`timestamp.strftime(TIME_FORMAT)`), while `get_latest` compares each key
against `stripped_datetime().time()`, a `datetime.time`.  In Python 3 the
comparison `str <= time` raises `TypeError`.  The dynamic values and the
fallible comparison are modelled explicitly. -/

/-- Strict lexicographic comparison of Python strings (by code point). -/
def pyStrLT : PyStr → PyStr → Bool
  | [], [] => false
  | [], _ :: _ => true
  | _ :: _, [] => false
  | a :: as, b :: bs =>
    if a.toNat < b.toNat then true
    else if a = b then pyStrLT as bs
    else false

/-- A Python value that may appear in the comparison of `get_latest`:
a `"HH:MM"` string key or a `datetime.time` (minutes since midnight). -/
inductive PyVal
  | str (s : PyStr)
  | time (t : ℕ)
  deriving DecidableEq, Repr

/-- Errors escaping daemon.py's `get_latest`. -/
inductive DynErr
  | typeError
  | noLatestEntry
  deriving DecidableEq, Repr

/-- Python `<=` between dynamic values: defined within a type, `TypeError`
across `str` and `datetime.time`. -/
def pyLE : PyVal → PyVal → Except DynErr Bool
  | .str a, .str b => .ok (pyStrLT a b || decide (a = b))
  | .time a, .time b => .ok (decide (a ≤ b))
  | _, _ => .error .typeError

/-- Lexicographic order on `(key, brightness)` pairs with string keys, used
by `sorted(config.items())` on a schedule produced by daemon.py's
`parse_config` (all keys are strings, so tuple sorting itself succeeds). -/
def spairLE (a b : PyStr × ℤ) : Prop :=
  pyStrLT a.1 b.1 = true ∨ (a.1 = b.1 ∧ a.2 ≤ b.2)

instance : DecidableRel spairLE := fun a b => by
  unfold spairLE; infer_instance

/-- The scanning loop of daemon.py's `get_latest`, with the fallible dynamic
comparison `timestamp <= now`. -/
def scanLatestD (now : PyVal) :
    List (PyStr × ℤ) → Option (PyStr × ℤ) → Except DynErr (Option (PyStr × ℤ))
  | [], latest => .ok latest
  | (t, b) :: rest, latest =>
    match pyLE (.str t) now with
    | .error e => .error e
    | .ok true => scanLatestD now rest (some (t, b))
    | .ok false => .ok latest

/-- daemon.py's `get_latest(config)` on a string-keyed schedule, with `now`
passed explicitly as the dynamic value actually used
(`stripped_datetime().time()`). -/
def get_latestD (config : List (PyStr × ℤ)) (now : PyVal) :
    Except DynErr (PyStr × ℤ) :=
  let sorted_values := List.insertionSort spairLE config
  match scanLatestD now sorted_values none with
  | .error e => .error e
  | .ok (some latest) => .ok latest
  | .ok none =>
    match sorted_values.getLast? with
    | some last => .ok last
    | none => .error .noLatestEntry

/-- `Daemon._startup`: ask `get_latest` for the entry in effect; a
`NoLatestEntry` is caught and the hard-coded 100% fallback applied, so
startup completes; any other exception (in particular the `TypeError`
above) propagates and aborts startup. -/
def startupD (config : List (PyStr × ℤ)) (now : ℕ) : Except DynErr Unit :=
  match get_latestD config (.time now) with
  | .ok _ => .ok ()
  | .error .noLatestEntry => .ok ()
  | .error .typeError => .error .typeError

/-! ## The daemon loop (`Daemon.spawn`, src/backlight/daemon.py)

Each tick computes `now = stripped_datetime()` (the clock truncated to the
minute); ticks are modelled by the list of these stripped values, encoded
as minutes since the epoch (`ℕ`) and nondecreasing for a monotone clock.
Sub-minute tick intervals yield repeated equal entries.  The loop applies
`self.config[now.time()]` (suppressing `KeyError`) only when the minute
advanced past `self._last`, and records the consulted minute. -/

/-- Mutable loop state: `_last` and the log of applied `(minute, brightness)`
brightness changes. -/
structure DaemonState where
  last : Option ℕ
  applied : List (ℕ × ℕ)
  deriving DecidableEq, Repr

/-- One iteration of the `while` loop of `Daemon.spawn` at stripped time
`now`, over the schedule `config` (a lookup keyed by clock minute). -/
def tickStep (config : ℕ → Option ℕ) (s : DaemonState) (now : ℕ) :
    DaemonState :=
  if s.last = none ∨ ∃ l, s.last = some l ∧ l < now then
    match config now with
    | some b => { last := some now, applied := s.applied ++ [(now, b)] }
    | none => { last := some now, applied := s.applied }
  else s

/-- Run the loop over a finite prefix of ticks. -/
def spawnLoop (config : ℕ → Option ℕ) (ticks : List ℕ) (s : DaemonState) :
    DaemonState :=
  ticks.foldl (tickStep config) s

/-! ## CLI value handling (src/backlight/cli.py, src/backlight/types.py) -/

/-- `IntegerDifferential`: an `int` subclass remembering whether the source
string started with `'+'` or `'-'`. -/
structure IntegerDifferential where
  val : ℤ
  increase : Bool
  decrease : Bool
  deriving DecidableEq, Repr

/-- Python `s.strip()`: drop whitespace from both ends. -/
def pyStrip (s : PyStr) : PyStr :=
  ((s.dropWhile Char.isWhitespace).reverse.dropWhile Char.isWhitespace).reverse

/-- Python `int(s)` on a stripped string: optional sign followed by at least
one digit; anything else raises `ValueError` (`none`). -/
def pyIntOfStr (s : PyStr) : Option ℤ :=
  match s with
  | '-' :: ds => (pyDigits ds).map (fun n => -n)
  | '+' :: ds => pyDigits ds
  | ds => pyDigits ds
where
  pyDigits (ds : PyStr) : Option ℤ :=
    if ds ≠ [] ∧ ds.all Char.isDigit then
      some ((digitsVal ds : ℕ) : ℤ)
    else none

/-- `IntegerDifferential.__new__` on a string argument: strip, record
whether the result starts with `'+'` or `'-'`, convert with `int`. -/
def IntegerDifferential.ofString (s : PyStr) : Option IntegerDifferential :=
  let t := pyStrip s
  (pyIntOfStr t).map fun v =>
    { val := v
      increase := decide (t.take 1 = ['+'])
      decrease := decide (t.take 1 = ['-']) }

/-- `_set_value` in percent mode (the `raw=False` branch of
src/backlight/cli.py): an `increase` value is clamped to at most 100 above
the current percent, a `decrease` value is clamped to at least 0 below it —
by *subtracting* the (negative) parsed value — and the result is pushed
through the percent setter. -/
def setValuePercent (card : LinuxState) (value : IntegerDifferential) :
    Except PyErr LinuxState :=
  let v : ℤ :=
    if value.increase then min 100 (linuxPercentGet card + value.val)
    else if value.decrease then max 0 (linuxPercentGet card - value.val)
    else value.val
  linuxSetPercent card v

/-! ## Device discovery (`autoload`, src/backlight/api/__init__.py and
src/backlight/api/misc.py) -/

/-- Outcome of constructing `LinuxBacklight('acpi_video0')`. -/
inductive AcpiResult
  | ok
  | doesNotExist
  | doesNotSupportAPI
  deriving DecidableEq, Repr

/-- Outcome of `I2C_CARDS[syshash()]()`: a known chip, a `KeyError` (no
fingerprint match), or `DoesNotExist` (bus missing). -/
inductive I2CResult
  | chip (name : String)
  | keyError
  | doesNotExist
  deriving DecidableEq, Repr

/-- The hardware environment probed by discovery: the well-known Linux
device, the fingerprint lookup, and `LinuxBacklight.any()`'s enumeration of
`/sys/class/backlight` (`none` = `NoSupportedGraphicsCards`). -/
structure DiscoveryEnv where
  acpi : AcpiResult
  i2c : I2CResult
  linuxAny : Option String
  deriving DecidableEq, Repr

/-- A loaded graphics-card backend. -/
inductive Device
  | linux (name : String)
  | i2cDevice (chip : String)
  | xrandr
  deriving DecidableEq, Repr

/-- Discovery failure. -/
inductive DiscoveryErr
  | noSupportedGraphicsCards
  deriving DecidableEq, Repr

/-- `autoload(search)`: try `LinuxBacklight('acpi_video0')` (suppressing
`DoesNotExist` / `DoesNotSupportAPI`), then the I2C fingerprint table
(suppressing `KeyError` / `DoesNotExist`), then — only if `search` —
`LinuxBacklight.any()`, and otherwise fall back to `Xrandr()`. -/
def autoload (env : DiscoveryEnv) (search : Bool) :
    Except DiscoveryErr Device :=
  match env.acpi with
  | .ok => .ok (.linux "acpi_video0")
  | _ =>
    match env.i2c with
    | .chip c => .ok (.i2cDevice c)
    | _ =>
      if search then
        match env.linuxAny with
        | some n => .ok (.linux n)
        | none => .error .noSupportedGraphicsCards
      else .ok .xrandr

/-- A concrete one-entry schedule: brightness 42 at minute 5 (used to
instantiate the daemon-loop statements). -/
def exampleSchedule : ℕ → Option ℕ :=
  fun n => if n = 5 then some 42 else none

/-! ## C3 — `set_percent` range validation across the variants -/

/-- C3 counterexample: the display-output variant does *not* reject an
out-of-range percent.  `Xrandr.percent = 150` succeeds and overwrites the
raw multiplier (1 becomes 1.5), refuting the claim that every device variant
fails with an invalid-argument error and leaves the raw value unchanged. -/
theorem xrandr_set_percent_unvalidated_cx :
    xrandrSetPercent { raw := 1 } 150 = { raw := 3 / 2 } ∧
      ({ raw := 3 / 2 } : XrandrState) ≠ { raw := 1 } := by
  constructor
  · unfold xrandrSetPercent
    norm_num
  · intro h
    have : (3 / 2 : ℚ) = 1 := congrArg XrandrState.raw h
    norm_num at this

/-- C3 amended: for every percent outside `[0, 100]`, the Linux sysfs and
I2C variants raise `ValueError` and leave the device state unchanged, while
the display-output (`Xrandr`) variant performs no validation and overwrites
the raw multiplier with `percent / 100`. -/
theorem set_percent_out_of_range (p : ℤ) (h : p < 0 ∨ 100 < p)
    (sL : LinuxState) (sI : I2CState) (sX : XrandrState) :
    linuxSetPercent sL p = .error .valueError ∧
      i2cSetPercent sI (p : ℚ) = .error .valueError ∧
      xrandrSetPercent sX (p : ℚ) = { raw := (p : ℚ) / 100 } := by
  refine ⟨?_, ?_, rfl⟩
  · unfold linuxSetPercent
    rw [if_neg]
    omega
  · unfold i2cSetPercent
    rw [if_neg]
    rintro ⟨h0, h1⟩
    rcases h with h | h
    · exact absurd h0 (by exact_mod_cast not_le.mpr (by exact_mod_cast h))
    · have : (p : ℚ) > 100 := by exact_mod_cast h
      linarith

/-- C3 witness: the amended statement at `p = 150` on concrete states. -/
theorem set_percent_out_of_range_witness :
    ((150 : ℤ) < 0 ∨ 100 < (150 : ℤ)) ∧
      (linuxSetPercent { raw := 5, max := 10 } 150 = .error .valueError ∧
        i2cSetPercent { raw := 1, values := chrontelEntries } ((150 : ℤ) : ℚ) =
          .error .valueError ∧
        xrandrSetPercent { raw := 1 } ((150 : ℤ) : ℚ) =
          { raw := ((150 : ℤ) : ℚ) / 100 }) :=
  ⟨by omega,
    set_percent_out_of_range 150 (by omega) { raw := 5, max := 10 }
      { raw := 1, values := chrontelEntries } { raw := 1 }⟩

/-! ## C9 — discovery order of `autoload` -/

/-- C9: discovery order of `autoload`.  (i) If `acpi_video0` exists and
supports the API it is chosen, for either value of `search` — hence before
the I2C fingerprint lookup and before the display-output fallback.
(ii) With `search = false` the result never depends on the enumeration of
Linux backlight devices.  (iii) When the well-known device fails, a
fingerprint match is used before any fallback.  (iv) When both cheap probes
fail, `search = true` uses the enumeration, and with `search = false` the
display-output variant is the last resort. -/
theorem autoload_order (env : DiscoveryEnv) :
    (env.acpi = .ok →
      ∀ search, autoload env search = .ok (.linux "acpi_video0")) ∧
    (∀ l₁ l₂, autoload { env with linuxAny := l₁ } false =
      autoload { env with linuxAny := l₂ } false) ∧
    (env.acpi ≠ .ok → ∀ c, env.i2c = .chip c →
      ∀ search, autoload env search = .ok (.i2cDevice c)) ∧
    (env.acpi ≠ .ok → (env.i2c = .keyError ∨ env.i2c = .doesNotExist) →
      autoload env false = .ok .xrandr ∧
        ∀ n, autoload { env with linuxAny := some n } true = .ok (.linux n)) := by
  obtain ⟨acpi, i2c, linuxAny⟩ := env
  refine ⟨?_, ?_, ?_, ?_⟩
  · rintro rfl search
    rfl
  · intro l₁ l₂
    cases acpi <;> cases i2c <;> rfl
  · rintro hne c rfl search
    cases acpi with
    | ok => exact absurd rfl hne
    | doesNotExist => rfl
    | doesNotSupportAPI => rfl
  · rintro hne h
    cases acpi with
    | ok => exact absurd rfl hne
    | doesNotExist => rcases h with rfl | rfl <;> exact ⟨rfl, fun _ => rfl⟩
    | doesNotSupportAPI => rcases h with rfl | rfl <;> exact ⟨rfl, fun _ => rfl⟩

/-- C9 witness: a concrete environment where `acpi_video0` exists and a
fingerprint match is also available — the well-known Linux device wins with
`search = false`. -/
theorem autoload_order_witness :
    (({ acpi := .ok,
        i2c := .chip "ChrontelCH7511B",
        linuxAny := some "intel_backlight" } : DiscoveryEnv).acpi = .ok) ∧
      autoload
        { acpi := .ok,
          i2c := .chip "ChrontelCH7511B",
          linuxAny := some "intel_backlight" } false =
        .ok (.linux "acpi_video0") :=
  ⟨rfl,
    (autoload_order
      { acpi := .ok,
        i2c := .chip "ChrontelCH7511B",
        linuxAny := some "intel_backlight" }).1 rfl false⟩

/-! ## C8 — `set_percent(get_percent())` on the linear (sysfs) device -/

/-- C8 counterexample: with `max = 1000` and `raw = 999`, the reported
percent is `99`, and re-applying it stores `raw = 990` — a change of 9 raw
units, refuting the claim that the round trip moves `raw` by at most one
unit. -/
theorem linux_set_get_percent_drift_cx :
    linuxPercentGet { raw := 999, max := 1000 } = 99 ∧
      linuxSetPercent { raw := 999, max := 1000 }
          (linuxPercentGet { raw := 999, max := 1000 }) =
        .ok { raw := 990, max := 1000 } ∧
      (999 - 990 : ℤ) = 9 :=
  ⟨by decide, rfl, by decide⟩

/-- C8 amended: for every linear device with `0 < max` and
`0 ≤ raw ≤ max`, `set_percent(get_percent())` succeeds, never increases the
raw value, and decreases it by at most `max / 100 + 1` (so by at most one
unit whenever `max ≤ 100`; the percent quantisation loses up to `max / 100`
raw units in general). -/
theorem linux_set_get_percent_bounded (m r : ℤ) (hm : 0 < m) (hr0 : 0 ≤ r)
    (hrm : r ≤ m) :
    ∃ s', linuxSetPercent { raw := r, max := m }
        (linuxPercentGet { raw := r, max := m }) = .ok s' ∧
      s'.max = m ∧ s'.raw ≤ r ∧ r - s'.raw ≤ m / 100 + 1 := by
  have hm0 : (0 : ℤ) ≤ m := le_of_lt hm
  have hp_def : linuxPercentGet { raw := r, max := m } = r * 100 / m := by
    unfold linuxPercentGet
    exact Int.fdiv_eq_ediv _ hm0
  have hp0 : 0 ≤ r * 100 / m := Int.ediv_nonneg (by positivity) hm0
  have hp100 : r * 100 / m ≤ 100 := by
    have h1 : r * 100 ≤ m * 100 := by nlinarith
    have h2 : r * 100 / m ≤ m * 100 / m := Int.ediv_le_ediv hm h1
    have h3 : m * 100 / m = 100 := by
      rw [mul_comm]
      exact Int.mul_ediv_cancel _ (ne_of_gt hm)
    omega
  refine ⟨{ raw := m * (r * 100 / m) / 100, max := m }, ?_, rfl, ?_, ?_⟩
  · rw [hp_def]
    unfold linuxSetPercent
    rw [if_pos ⟨hp0, hp100⟩, Int.fdiv_eq_ediv _ (by norm_num : (0 : ℤ) ≤ 100)]
  all_goals
    dsimp only
    have e1 : m * (r * 100 / m) + r * 100 % m = r * 100 :=
      Int.ediv_add_emod (r * 100) m
    have e1a : 0 ≤ r * 100 % m := Int.emod_nonneg _ (ne_of_gt hm)
    have e1b : r * 100 % m < m := Int.emod_lt_of_pos _ hm
    generalize m * (r * 100 / m) = q at e1 ⊢
    omega

/-- C8 witness: the amended statement at `max = 100`, `raw = 57` (the bound
`max / 100 + 1` and the success of the round trip, instantiated). -/
theorem linux_set_get_percent_bounded_witness :
    (0 : ℤ) < 100 ∧ (0 : ℤ) ≤ 57 ∧ (57 : ℤ) ≤ 100 ∧
      ∃ s', linuxSetPercent { raw := 57, max := 100 }
          (linuxPercentGet { raw := 57, max := 100 }) = .ok s' ∧
        s'.max = 100 ∧ s'.raw ≤ 57 ∧ 57 - s'.raw ≤ 100 / 100 + 1 :=
  ⟨by norm_num, by norm_num, by norm_num,
    linux_set_get_percent_bounded 100 57 (by norm_num) (by norm_num)
      (by norm_num)⟩

/-! ## C10 — CLI `'-N'` input in percent mode -/

/-- C10: in percent mode, a parsed decrease value `d` with `d.val = -N`
(`N > 0`) — exactly what `IntegerDifferential('-N')` produces — makes
`_set_value` compute the target `max(0, percent - value) = percent + N`:
the brightness is *raised* by `N`, and when `percent + N` exceeds 100 the
percent setter rejects it as an invalid percentage. -/
theorem cli_decrease_raises (card : LinuxState) (d : IntegerDifferential)
    (N : ℕ) (hN : 0 < N) (hval : d.val = -(N : ℤ)) (hinc : d.increase = false)
    (hdec : d.decrease = true) (hraw : 0 ≤ card.raw) (hmax : 0 ≤ card.max) :
    max 0 (linuxPercentGet card - d.val) = linuxPercentGet card + N ∧
      setValuePercent card d = linuxSetPercent card (linuxPercentGet card + N) ∧
      linuxPercentGet card < linuxPercentGet card + N ∧
      (100 < linuxPercentGet card + N →
        setValuePercent card d = .error .valueError) := by
  have hp0 : 0 ≤ linuxPercentGet card :=
    Int.fdiv_nonneg (by positivity) hmax
  have hmaxeq : max 0 (linuxPercentGet card - d.val) =
      linuxPercentGet card + N := by
    rw [hval]
    omega
  have hset : setValuePercent card d =
      linuxSetPercent card (linuxPercentGet card + N) := by
    unfold setValuePercent
    rw [hinc, hdec]
    simp only [Bool.false_eq_true, if_false, if_true, hmaxeq]
  refine ⟨hmaxeq, hset, by omega, fun hover => ?_⟩
  rw [hset]
  unfold linuxSetPercent
  rw [if_neg]
  omega

/-- C10 witness: the CLI input string `"-30"` parses to
`⟨-30, increase := false, decrease := true⟩`, and on a device currently at
90% the resulting target is 120, rejected as an invalid percentage. -/
theorem cli_decrease_raises_witness :
    IntegerDifferential.ofString "-30".data =
        some { val := -30, increase := false, decrease := true } ∧
      linuxPercentGet { raw := 90, max := 100 } = 90 ∧
      setValuePercent { raw := 90, max := 100 }
          { val := -30, increase := false, decrease := true } =
        .error .valueError :=
  ⟨by decide, by decide,
    ((cli_decrease_raises { raw := 90, max := 100 }
        { val := -30, increase := false, decrease := true } 30 (by norm_num)
        (by norm_num) rfl rfl (by norm_num) (by norm_num)).2.2.2 (by decide))⟩

/-! ## C7 — dropped and kept entries in `parse_config` -/

/-- Unfolding `parse_config` at an entry whose key fails to parse. -/
theorem parse_config_cons_badkey {ts : PyStr} (b : ℤ)
    (rest : List (PyStr × ℤ)) (hts : strptimeHM ts = none) :
    parse_config ((ts, b) :: rest) =
      ((parse_config rest).1,
        .invalidTimestamp ts :: (parse_config rest).2) := by
  simp only [parse_config, hts]

/-- Unfolding `parse_config` at a well-formed entry. -/
theorem parse_config_cons_keep {ts : PyStr} {h m : ℕ} {b : ℤ}
    (rest : List (PyStr × ℤ)) (hts : strptimeHM ts = some (h, m))
    (hb : 0 ≤ b ∧ b ≤ 100) :
    parse_config ((ts, b) :: rest) =
      ((formatHM h m, b) :: (parse_config rest).1, (parse_config rest).2) := by
  simp only [parse_config, hts]
  rw [if_pos hb]

/-- Unfolding `parse_config` at an entry with an out-of-range value. -/
theorem parse_config_cons_badvalue {ts : PyStr} {h m : ℕ} {b : ℤ}
    (rest : List (PyStr × ℤ)) (hts : strptimeHM ts = some (h, m))
    (hb : ¬(0 ≤ b ∧ b ≤ 100)) :
    parse_config ((ts, b) :: rest) =
      ((parse_config rest).1,
        .invalidPercentage b :: (parse_config rest).2) := by
  simp only [parse_config, hts]
  rw [if_neg hb]

/-- A successful `strptime('%H:%M')` yields a valid time of day. -/
theorem strptimeHM_bounds {ts : PyStr} {h m : ℕ}
    (hts : strptimeHM ts = some (h, m)) : h ≤ 23 ∧ m ≤ 59 := by
  unfold strptimeHM at hts
  rcases hsplit : splitChar ':' ts with _ | ⟨hs, _ | ⟨ms, _ | _⟩⟩ <;>
    rw [hsplit] at hts <;> simp only [] at hts
  case _ => exact absurd hts (by simp)
  case _ => exact absurd hts (by simp)
  case _ =>
    split_ifs at hts with h1 h2
    simp only [Option.some.injEq, Prod.mk.injEq] at hts
    simp only [Bool.and_eq_true, decide_eq_true_eq] at h2
    omega
  case _ => exact absurd hts (by simp)

/-- C7 counterexample: `strptime('%H:%M')` accepts the non-zero-padded key
`"8:00"`, so `parse_config({"8:00": 30})` does *not* drop the entry — it is
kept (normalized to `"08:00"`) and no diagnostic is emitted, refuting the
claim that such an entry is dropped with a diagnostic. -/
theorem parse_config_nonpadded_cx :
    strptimeHM "8:00".data = some (8, 0) ∧
      parse_config [("8:00".data, 30)] = ([("08:00".data, 30)], []) :=
  ⟨by decide, by decide⟩

/-- C7 amended: `parse_config` keeps an entry whose key `strptime` accepts
(non-zero-padded keys such as `"8:00"` included, normalized to the
zero-padded form) and whose value lies in 0–100; it drops an entry whose
key fails `HH:MM` parsing, and an entry whose value is out of range, each
with one diagnostic; in every case the rest of the schedule is parsed
unchanged. -/
theorem parse_config_amended (rest : List (PyStr × ℤ)) (b : ℤ) :
    (0 ≤ b → b ≤ 100 →
      parse_config (("8:00".data, b) :: rest) =
        (("08:00".data, b) :: (parse_config rest).1, (parse_config rest).2)) ∧
    (∀ ts, strptimeHM ts = none →
      parse_config ((ts, b) :: rest) =
        ((parse_config rest).1,
          .invalidTimestamp ts :: (parse_config rest).2)) ∧
    (∀ ts h m, strptimeHM ts = some (h, m) → (b < 0 ∨ 100 < b) →
      parse_config ((ts, b) :: rest) =
        ((parse_config rest).1,
          .invalidPercentage b :: (parse_config rest).2)) := by
  refine ⟨fun hb0 hb1 => ?_, fun ts hts => ?_, fun ts h m hts hb => ?_⟩
  · rw [parse_config_cons_keep rest
      (show strptimeHM "8:00".data = some (8, 0) from by decide) ⟨hb0, hb1⟩,
      show formatHM 8 0 = "08:00".data from by decide]
  · exact parse_config_cons_badkey b rest hts
  · exact parse_config_cons_badvalue rest hts (by omega)

/-- C7 witness: the spec's own example — `{"08:00": 150, "18:00": 80}`
drops the out-of-range entry with a diagnostic and keeps the sibling. -/
theorem parse_config_amended_witness :
    strptimeHM "08:00".data = some (8, 0) ∧ ((150 : ℤ) < 0 ∨ 100 < (150 : ℤ)) ∧
      parse_config [("08:00".data, 150), ("18:00".data, 80)] =
        ([("18:00".data, 80)], [.invalidPercentage 150]) := by
  refine ⟨by decide, by omega, ?_⟩
  rw [(parse_config_amended [("18:00".data, 80)] 150).2.2 "08:00".data 8 0
    (by decide) (by omega)]
  decide

/-! ## C4 — daemon.py compares string keys against `datetime.time` -/

/-- Helper: every key produced by `parse_config` is a rendered `"HH:MM"`
string. -/
theorem parse_config_keys_formatted (config : List (PyStr × ℤ)) :
    ∀ e ∈ (parse_config config).1, ∃ h m, h ≤ 23 ∧ m ≤ 59 ∧
      e.1 = formatHM h m := by
  induction config with
  | nil => intro e he; simp [parse_config] at he
  | cons entry rest ih =>
    obtain ⟨ts, b⟩ := entry
    intro e he
    rcases hts : strptimeHM ts with _ | ⟨h, m⟩
    · rw [parse_config_cons_badkey b rest hts] at he
      exact ih e he
    · by_cases hb : 0 ≤ b ∧ b ≤ 100
      · rw [parse_config_cons_keep rest hts hb] at he
        rcases List.mem_cons.mp he with rfl | hmem
        · obtain ⟨hh, hm⟩ := strptimeHM_bounds hts
          exact ⟨h, m, hh, hm, rfl⟩
        · exact ih e hmem
      · rw [parse_config_cons_badvalue rest hts hb] at he
        exact ih e he

/-- Helper: on any non-empty string-keyed schedule, daemon.py's `get_latest`
raises `TypeError` at its very first comparison `timestamp <= now`. -/
theorem get_latestD_nonempty_typeError (l : List (PyStr × ℤ)) (hne : l ≠ [])
    (now : ℕ) : get_latestD l (.time now) = .error .typeError := by
  have hperm := List.perm_insertionSort spairLE l
  rcases hsort : List.insertionSort spairLE l with _ | ⟨⟨t, b⟩, rest⟩
  · rw [hsort] at hperm
    exact absurd hperm.symm.eq_nil hne
  · unfold get_latestD
    rw [hsort]
    rfl

/-- C4: every key of the schedule parsed by daemon.py's `parse_config` is a
rendered `"HH:MM"` *string*; on any parsed schedule with at least one entry,
`get_latest` raises `TypeError` when comparing such a key against
`stripped_datetime().time()`; consequently `Daemon._startup` completes
exactly when the parsed schedule is empty. -/
theorem daemon_startup_string_keys (config : List (PyStr × ℤ)) (now : ℕ) :
    (∀ e ∈ (parse_config config).1, ∃ h m, h ≤ 23 ∧ m ≤ 59 ∧
      e.1 = formatHM h m) ∧
    ((parse_config config).1 ≠ [] →
      get_latestD (parse_config config).1 (.time now) = .error .typeError) ∧
    (startupD (parse_config config).1 now = .ok () ↔
      (parse_config config).1 = []) := by
  refine ⟨parse_config_keys_formatted config,
    fun hne => get_latestD_nonempty_typeError _ hne now, ?_, ?_⟩
  · intro hok
    by_contra hne
    rw [startupD, get_latestD_nonempty_typeError _ hne now] at hok
    exact Except.noConfusion hok
  · intro hnil
    rw [startupD, hnil]
    rfl

/-- C4 witness: the schedule `{"08:00": 30}` parses to one string-keyed
entry; `get_latest` raises `TypeError` at noon and startup fails. -/
theorem daemon_startup_string_keys_witness :
    parse_config [("08:00".data, 30)] = ([("08:00".data, 30)], []) ∧
      get_latestD [("08:00".data, 30)] (.time 720) = .error .typeError ∧
      ¬ startupD [("08:00".data, 30)] 720 = .ok () := by
  have h := daemon_startup_string_keys [("08:00".data, 30)] 720
  have hp : parse_config [("08:00".data, 30)] = ([("08:00".data, 30)], []) :=
    by decide
  refine ⟨hp, ?_, ?_⟩
  · have := h.2.1
    rw [hp] at this
    exact this (by simp)
  · intro hok
    have := h.2.2.mp
    rw [hp] at this
    simpa using this hok

/-! ## C2 — the daemon loop applies a matching entry once per minute -/

/-- Helper: the effect of running the daemon loop over a nondecreasing list
of stripped tick times, on the applications logged for minute `m`.  The
schedule entry at `m` is appended exactly once iff some tick falls in
minute `m` and the loop state has not yet consulted minute `m` or later. -/
theorem spawnLoop_filter_aux (config : ℕ → Option ℕ) (m b : ℕ)
    (hc : config m = some b) :
    ∀ (ticks : List ℕ), ticks.Pairwise (· ≤ ·) → ∀ (s : DaemonState),
      (∀ l, s.last = some l → ∀ t ∈ ticks, l ≤ t) →
      (spawnLoop config ticks s).applied.filter (fun e => decide (e.1 = m)) =
        s.applied.filter (fun e => decide (e.1 = m)) ++
          (if m ∈ ticks ∧ (s.last = none ∨ ∃ l, s.last = some l ∧ l < m)
            then [(m, b)] else []) := by
  intro ticks
  induction ticks with
  | nil =>
    intro _ s _
    simp [spawnLoop]
  | cons t ts ih =>
    intro hsort s hlast
    obtain ⟨ht, hts⟩ := List.pairwise_cons.mp hsort
    have hstep : spawnLoop config (t :: ts) s =
        spawnLoop config ts (tickStep config s t) := rfl
    rw [hstep]
    by_cases hg : s.last = none ∨ ∃ l, s.last = some l ∧ l < t
    · by_cases htm : t = m
      · subst htm
        have htick : tickStep config s t =
            { last := some t, applied := s.applied ++ [(t, b)] } := by
          unfold tickStep
          rw [if_pos hg, hc]
        rw [htick,
          ih hts _ (by rintro l rfl1 x hx; cases rfl1; exact ht x hx)]
        have hcond2 : ¬(t ∈ ts ∧ ((some t : Option ℕ) = none ∨
            ∃ l, (some t : Option ℕ) = some l ∧ l < t)) := by
          rintro ⟨-, h | ⟨l, hl, hlt⟩⟩
          · exact Option.noConfusion h
          · cases hl; omega
        rw [if_neg hcond2, if_pos ⟨List.mem_cons_self t ts, hg⟩]
        simp [List.filter_append]
      · have happ : (tickStep config s t).applied.filter
              (fun e => decide (e.1 = m)) =
            s.applied.filter (fun e => decide (e.1 = m)) := by
          unfold tickStep
          rw [if_pos hg]
          cases config t <;> simp [htm, Ne.symm htm]
        have hlaststep : (tickStep config s t).last = some t := by
          unfold tickStep
          rw [if_pos hg]
          cases config t <;> rfl
        rw [ih hts _ (by
          rw [hlaststep]
          rintro l rfl1 x hx
          cases rfl1
          exact ht x hx), happ, hlaststep]
        by_cases hm : m ∈ ts
        · have htm' : t < m := lt_of_le_of_ne (ht m hm) htm
          have hg' : s.last = none ∨ ∃ l, s.last = some l ∧ l < m := by
            rcases hg with h | ⟨l, hl, hlt⟩
            · exact Or.inl h
            · exact Or.inr ⟨l, hl, lt_trans hlt htm'⟩
          rw [if_pos ⟨hm, Or.inr ⟨t, rfl, htm'⟩⟩,
            if_pos ⟨List.mem_cons_of_mem t hm, hg'⟩]
        · have h1 : ¬(m ∈ ts ∧ ((some t : Option ℕ) = none ∨
              ∃ l, (some t : Option ℕ) = some l ∧ l < m)) := by
            rintro ⟨hmem, -⟩; exact hm hmem
          have h2 : ¬(m ∈ t :: ts ∧ (s.last = none ∨
              ∃ l, s.last = some l ∧ l < m)) := by
            rintro ⟨hmem, -⟩
            rcases List.mem_cons.mp hmem with rfl | hmem
            · exact htm rfl
            · exact hm hmem
          rw [if_neg h1, if_neg h2]
    · have htick : tickStep config s t = s := by
        unfold tickStep
        rw [if_neg hg]
      push_neg at hg
      obtain ⟨hne, hlt⟩ := hg
      obtain ⟨l, hslast⟩ := Option.ne_none_iff_exists'.mp hne
      have hl_t : l = t := by
        have h1 := hlast l hslast t (List.mem_cons_self t ts)
        have h2 := hlt l hslast
        omega
      subst hl_t
      rw [htick, ih hts s (by
        rintro l' hl' x hx
        rw [hslast] at hl'
        cases hl'
        exact ht x hx)]
      by_cases hm : m ∈ ts
      · by_cases hlm : l < m
        · rw [if_pos ⟨hm, Or.inr ⟨l, hslast, hlm⟩⟩,
            if_pos ⟨List.mem_cons_of_mem l hm, Or.inr ⟨l, hslast, hlm⟩⟩]
        · have h1 : ¬(m ∈ ts ∧ (s.last = none ∨
              ∃ l', s.last = some l' ∧ l' < m)) := by
            rintro ⟨-, h | ⟨l', hl', hlt'⟩⟩
            · exact hne h
            · rw [hslast] at hl'; cases hl'; exact hlm hlt'
          have h2 : ¬(m ∈ l :: ts ∧ (s.last = none ∨
              ∃ l', s.last = some l' ∧ l' < m)) := by
            rintro ⟨-, h | ⟨l', hl', hlt'⟩⟩
            · exact hne h
            · rw [hslast] at hl'; cases hl'; exact hlm hlt'
          rw [if_neg h1, if_neg h2]
      · have h1 : ¬(m ∈ ts ∧ (s.last = none ∨
            ∃ l', s.last = some l' ∧ l' < m)) := by
          rintro ⟨hmem, -⟩; exact hm hmem
        have h2 : ¬(m ∈ l :: ts ∧ (s.last = none ∨
            ∃ l', s.last = some l' ∧ l' < m)) := by
          rintro ⟨hmem, h | ⟨l', hl', hlt'⟩⟩
          · exact hne h
          · rw [hslast] at hl'
            cases hl'
            rcases List.mem_cons.mp hmem with rfl | hmem
            · exact absurd hlt' (lt_irrefl _)
            · exact hm hmem
        rw [if_neg h1, if_neg h2]

/-- C2: on a monotone clock (nondecreasing stripped tick times, equal
values encoding several ticks within one minute — as with a sub-60-second
tick interval), a schedule entry at minute `m` is applied exactly once for
that minute by `Daemon.spawn`'s loop: the application log filtered to
minute `m` is exactly `[(m, brightness)]`. -/
theorem daemon_applies_once (config : ℕ → Option ℕ) (ticks : List ℕ)
    (m b : ℕ) (hc : config m = some b) (hsort : ticks.Pairwise (· ≤ ·))
    (hm : m ∈ ticks) :
    (spawnLoop config ticks { last := none, applied := [] }).applied.filter
      (fun e => decide (e.1 = m)) = [(m, b)] := by
  rw [spawnLoop_filter_aux config m b hc ticks hsort _
    (by rintro l hl; exact absurd hl (by simp))]
  rw [if_pos ⟨hm, Or.inl rfl⟩]
  simp

/-- C2 witness: three ticks inside minute 5 (a sub-minute tick interval)
apply the entry exactly once. -/
theorem daemon_applies_once_witness :
    exampleSchedule 5 = some 42 ∧ ([5, 5, 5] : List ℕ).Pairwise (· ≤ ·) ∧
      5 ∈ ([5, 5, 5] : List ℕ) ∧
      (spawnLoop exampleSchedule [5, 5, 5]
          { last := none, applied := [] }).applied.filter
        (fun e => decide (e.1 = 5)) = [(5, 42)] :=
  ⟨rfl, by decide, by decide,
    daemon_applies_once exampleSchedule [5, 5, 5] 5 42 rfl (by decide)
      (by decide)⟩

/-! ## C1 — `get_latest` returns the latest entry not after `now` -/

/-- Helper: behaviour of the scanning loop on a sorted schedule: either no
entry is `<= now` and the accumulator is returned unchanged, or the scan
returns a maximal entry among those `<= now`. -/
theorem scanLatest_cases (now : ℕ) :
    ∀ (l : List (ℕ × ℕ)), l.Pairwise pairLE → ∀ latest,
      (scanLatest now l latest = latest ∧ ∀ e ∈ l, ¬e.1 ≤ now) ∨
      (∃ e, scanLatest now l latest = some e ∧ e ∈ l ∧ e.1 ≤ now ∧
        ∀ e' ∈ l, e'.1 ≤ now → e'.1 ≤ e.1) := by
  intro l
  induction l with
  | nil =>
    intro _ latest
    exact Or.inl ⟨rfl, by simp⟩
  | cons hd rest ih =>
    obtain ⟨t, b⟩ := hd
    intro hsort latest
    obtain ⟨hh, hrest⟩ := List.pairwise_cons.mp hsort
    by_cases htn : t ≤ now
    · have hscan : scanLatest now ((t, b) :: rest) latest =
          scanLatest now rest (some (t, b)) := by
        simp only [scanLatest, if_pos htn]
      rcases ih hrest (some (t, b)) with ⟨heq, hall⟩ | ⟨e, heq, hmem, hle, hmax⟩
      · right
        refine ⟨(t, b), by rw [hscan, heq], List.mem_cons_self _ _, htn, ?_⟩
        rintro e' he' hle'
        rcases List.mem_cons.mp he' with rfl | hmem'
        · exact le_refl _
        · exact absurd hle' (hall e' hmem')
      · right
        refine ⟨e, by rw [hscan, heq], List.mem_cons_of_mem _ hmem, hle, ?_⟩
        rintro e' he' hle'
        rcases List.mem_cons.mp he' with rfl | hmem'
        · have hte := hh e hmem
          unfold pairLE at hte
          omega
        · exact hmax e' hmem' hle'
    · left
      refine ⟨by simp only [scanLatest, if_neg htn], ?_⟩
      rintro e he
      rcases List.mem_cons.mp he with rfl | hmem
      · exact htn
      · have hte := hh e hmem
        unfold pairLE at hte
        omega

/-- Helper: the last element of a sorted schedule is its maximal entry. -/
theorem sorted_getLast_max :
    ∀ (l : List (ℕ × ℕ)), l.Pairwise pairLE → ∀ e, l.getLast? = some e →
      e ∈ l ∧ ∀ e' ∈ l, e'.1 ≤ e.1 := by
  intro l
  induction l with
  | nil => intro _ e he; simp at he
  | cons hd rest ih =>
    intro hsort e he
    obtain ⟨hh, hrest⟩ := List.pairwise_cons.mp hsort
    cases rest with
    | nil =>
      simp only [List.getLast?_singleton, Option.some.injEq] at he
      subst he
      exact ⟨List.mem_cons_self _ _, by simp⟩
    | cons hd2 rest2 =>
      rw [List.getLast?_cons_cons] at he
      obtain ⟨hmem, hmax⟩ := ih hrest e he
      refine ⟨List.mem_cons_of_mem _ hmem, ?_⟩
      rintro e' he'
      rcases List.mem_cons.mp he' with rfl | hmem'
      · have hte := hh e hmem
        unfold pairLE at hte
        omega
      · exact hmax e' hmem'

/-- C1: `get_latest` fails with `NoLatestEntry` exactly on the empty
schedule; on a non-empty schedule it returns an entry of the schedule that
either is the one with the greatest time not later than `now`, or — when
every entry is strictly later than `now` — wraps around to the
chronologically last entry (the previous day's last setting). -/
theorem get_latest_spec (config : List (ℕ × ℕ)) (now : ℕ) :
    (config = [] → get_latest config now = .error .noLatestEntry) ∧
    (config ≠ [] → ∃ e, get_latest config now = .ok e ∧ e ∈ config ∧
      ((e.1 ≤ now ∧ ∀ e' ∈ config, e'.1 ≤ now → e'.1 ≤ e.1) ∨
        ((∀ e' ∈ config, now < e'.1) ∧ ∀ e' ∈ config, e'.1 ≤ e.1))) := by
  have hperm := List.perm_insertionSort pairLE config
  have hsort : (List.insertionSort pairLE config).Pairwise pairLE :=
    List.sorted_insertionSort pairLE config
  constructor
  · rintro rfl
    rfl
  · intro hne
    rcases scanLatest_cases now (List.insertionSort pairLE config) hsort none
      with ⟨heq, hall⟩ | ⟨e, heq, hmem, hle, hmax⟩
    · have hsne : List.insertionSort pairLE config ≠ [] := by
        intro h
        rw [h] at hperm
        exact hne hperm.symm.eq_nil
      obtain ⟨e, he⟩ : ∃ e, (List.insertionSort pairLE config).getLast? =
          some e := by
        cases hs : List.insertionSort pairLE config with
        | nil => exact absurd hs hsne
        | cons a l => simp [List.getLast?_eq_getLast]
      obtain ⟨hmem, hmax⟩ :=
        sorted_getLast_max (List.insertionSort pairLE config) hsort e he
      refine ⟨e, ?_, hperm.mem_iff.mp hmem, Or.inr ⟨?_, ?_⟩⟩
      · unfold get_latest
        simp only [heq, he]
      · intro e' he'
        have := hall e' (hperm.mem_iff.mpr he')
        omega
      · exact fun e' he' => hmax e' (hperm.mem_iff.mpr he')
    · refine ⟨e, ?_, hperm.mem_iff.mp hmem, Or.inl ⟨hle,
        fun e' he' hle' => hmax e' (hperm.mem_iff.mpr he') hle'⟩⟩
      unfold get_latest
      simp only [heq]

/-- C1 witness: the spec's wrap-around example — schedule
`{08:00: 30, 18:00: 80}` at 05:00 (times in minutes since midnight) yields
the previous day's last setting `(18:00, 80)`. -/
theorem get_latest_spec_witness :
    get_latest [(480, 30), (1080, 80)] 300 = .ok (1080, 80) ∧
      ([(480, 30), (1080, 80)] : List (ℕ × ℕ)) ≠ [] ∧
      (∃ e, get_latest [(480, 30), (1080, 80)] 300 = .ok e ∧
        e ∈ [(480, 30), (1080, 80)] ∧
        ((e.1 ≤ 300 ∧ ∀ e' ∈ [(480, 30), (1080, 80)], e'.1 ≤ 300 →
            e'.1 ≤ e.1) ∨
          ((∀ e' ∈ [(480, 30), (1080, 80)], 300 < e'.1) ∧
            ∀ e' ∈ [(480, 30), (1080, 80)], e'.1 ≤ e.1))) :=
  ⟨rfl, by simp,
    (get_latest_spec [(480, 30), (1080, 80)] 300).2 (by simp)⟩

/-! ## Arithmetic of the `PercentageMap` construction (C5, C6) -/

/-- `roundHalfEvenFrac` in terms of Euclidean quotient and remainder. -/
theorem roundFrac_eq (num d : ℤ) (hd : 0 < d) :
    roundHalfEvenFrac num d =
      if 2 * (num % d) < d then num / d
      else if d < 2 * (num % d) then num / d + 1
      else if num / d % 2 = 0 then num / d else num / d + 1 := by
  unfold roundHalfEvenFrac
  rw [Int.fdiv_eq_ediv _ hd.le]
  have h : num - num / d * d = num % d := by
    rw [Int.emod_def]
    ring
  simp only [h]

/-- `round` of an exact integer multiple. -/
theorem roundFrac_mul (n d : ℤ) (hd : 0 < d) :
    roundHalfEvenFrac (n * d) d = n := by
  rw [roundFrac_eq _ _ hd, Int.mul_ediv_cancel _ (ne_of_gt hd),
    Int.mul_emod_left n d]
  rw [if_pos (by omega)]

/-- Python `round` is monotone (for a fixed positive denominator). -/
theorem roundFrac_mono (d : ℤ) (hd : 0 < d) {a b : ℤ} (hab : a ≤ b) :
    roundHalfEvenFrac a d ≤ roundHalfEvenFrac b d := by
  have hf : a / d ≤ b / d := Int.ediv_le_ediv hd hab
  rw [roundFrac_eq a d hd, roundFrac_eq b d hd]
  have ha0 : 0 ≤ a % d := Int.emod_nonneg _ (ne_of_gt hd)
  have had : a % d < d := Int.emod_lt_of_pos _ hd
  have hb0 : 0 ≤ b % d := Int.emod_nonneg _ (ne_of_gt hd)
  have hbd : b % d < d := Int.emod_lt_of_pos _ hd
  rcases lt_or_eq_of_le hf with h | h
  · split_ifs <;> omega
  · have e1 : d * (a / d) + a % d = a := Int.ediv_add_emod a d
    have e2 : d * (b / d) + b % d = b := Int.ediv_add_emod b d
    rw [← h] at e2
    have hs : a % d ≤ b % d := by
      generalize d * (a / d) = K at e1 e2
      omega
    rw [← h]
    split_ifs <;> omega

/-- When the doubled value clears `(2n + 1) · d`, Python `round` is at least
`n + 1` (the round-half-even tie goes unused because the bound is strict). -/
theorem roundFrac_ge (n num d : ℤ) (hd : 0 < d)
    (h : (2 * n + 1) * d < 2 * num) : n + 1 ≤ roundHalfEvenFrac num d := by
  rw [roundFrac_eq num d hd]
  have e1 : d * (num / d) + num % d = num := Int.ediv_add_emod num d
  have h1 : 0 ≤ num % d := Int.emod_nonneg _ (ne_of_gt hd)
  have h2 : num % d < d := Int.emod_lt_of_pos _ hd
  have hfn : n ≤ num / d := by
    have hnd : n * d ≤ num := by nlinarith
    calc n = n * d / d := (Int.mul_ediv_cancel _ (ne_of_gt hd)).symm
    _ ≤ num / d := Int.ediv_le_ediv hd hnd
  rcases lt_or_eq_of_le hfn with hlt | heq
  · split_ifs <;> omega
  · have e1' : d * n + num % d = num := by rw [heq]; exact e1
    have hgt : d < 2 * (num % d) := by nlinarith
    rw [← heq]
    split_ifs <;> omega

/-- Every range start in a `PercentageMap` tail is at least the rounded
initial accumulator (the boundaries are nondecreasing). -/
theorem buildEntries_start_ge (pspan d : ℤ) (hd : 0 < d) (hspan : 0 ≤ pspan) :
    ∀ (raws : List ℤ) (acc : ℤ) (e : ℤ × ℤ × ℤ),
      e ∈ buildEntries pspan d acc raws → roundHalfEvenFrac acc d ≤ e.2.1 := by
  intro raws
  induction raws with
  | nil => intro acc e he; simp [buildEntries] at he
  | cons r rest ih =>
    intro acc e he
    rcases List.mem_cons.mp he with rfl | hmem
    · exact le_refl _
    · exact le_trans (roundFrac_mono d hd (by omega : acc ≤ acc + pspan))
        (ih (acc + pspan) e hmem)

/-- Membership of an integer percent in a Python `range`. -/
theorem rangeContains_int_iff (a b p : ℤ) :
    rangeContains a b (p : ℚ) = true ↔ (a ≤ p ∧ p < b) := by
  simp only [rangeContains, Bool.and_eq_true, decide_eq_true_eq,
    Int.cast_le, Int.cast_lt, Rat.den_intCast, and_true]

/-- `from_percent` raises `ValueError` when no range contains the value. -/
theorem from_percent_error (entries : List (ℤ × ℤ × ℤ)) (q : ℚ)
    (h : ∀ e ∈ entries, ¬rangeContains e.2.1 e.2.2 q = true) :
    from_percent entries q = .error () := by
  induction entries with
  | nil => rfl
  | cons e rest ih =>
    obtain ⟨r, a, b⟩ := e
    unfold from_percent
    rw [if_neg (h _ (List.mem_cons_self _ _))]
    exact ih fun e' he' => h e' (List.mem_cons_of_mem _ he')

/-- `from_percent` raises `ValueError` on any non-integral value (every
range only ever contains integers). -/
theorem from_percent_nonint (entries : List (ℤ × ℤ × ℤ)) (q : ℚ)
    (hq : q.den ≠ 1) : from_percent entries q = .error () := by
  refine from_percent_error entries q fun e _ hc => hq ?_
  simp only [rangeContains, Bool.and_eq_true, decide_eq_true_eq] at hc
  exact hc.2

/-- Coverage of a `PercentageMap`: if an integer percent `p` lies between
the rounded initial accumulator and the rounded final accumulator, then
exactly one range of the map contains it (the ranges are consecutive with
nondecreasing boundaries), and `from_percent` returns that range's raw
value. -/
theorem buildEntries_filter_single (pspan d : ℤ) (hd : 0 < d)
    (hspan : 0 ≤ pspan) (p : ℤ) :
    ∀ (raws : List ℤ) (acc : ℤ),
      roundHalfEvenFrac acc d ≤ p →
      p < roundHalfEvenFrac (acc + raws.length * pspan) d →
      ∃ e, (buildEntries pspan d acc raws).filter
          (fun e => rangeContains e.2.1 e.2.2 (p : ℚ)) = [e] ∧
        e ∈ buildEntries pspan d acc raws ∧ e.2.1 ≤ p ∧ p < e.2.2 ∧
        from_percent (buildEntries pspan d acc raws) (p : ℚ) = .ok e.1 := by
  intro raws
  induction raws with
  | nil =>
    intro acc h1 h2
    simp only [List.length_nil, Nat.cast_zero, zero_mul, add_zero] at h2
    omega
  | cons r rest ih =>
    intro acc h1 h2
    have hlen : acc + (↑(r :: rest).length : ℤ) * pspan =
        (acc + pspan) + (↑rest.length : ℤ) * pspan := by
      simp only [List.length_cons]
      push_cast
      ring
    rw [hlen] at h2
    by_cases hpb : p < roundHalfEvenFrac (acc + pspan) d
    · refine ⟨(r, roundHalfEvenFrac acc d, roundHalfEvenFrac (acc + pspan) d),
        ?_, List.mem_cons_self _ _, h1, hpb, ?_⟩
      · have hhead : rangeContains (roundHalfEvenFrac acc d)
            (roundHalfEvenFrac (acc + pspan) d) (p : ℚ) = true :=
          (rangeContains_int_iff _ _ p).mpr ⟨h1, hpb⟩
        have htail : (buildEntries pspan d (acc + pspan) rest).filter
            (fun e => rangeContains e.2.1 e.2.2 (p : ℚ)) = [] := by
          rw [List.filter_eq_nil_iff]
          intro e he hc
          have hge := buildEntries_start_ge pspan d hd hspan rest
            (acc + pspan) e he
          have := (rangeContains_int_iff _ _ p).mp hc
          omega
        simp only [buildEntries]
        rw [List.filter_cons, if_pos hhead, htail]
      · have hhead : rangeContains (roundHalfEvenFrac acc d)
            (roundHalfEvenFrac (acc + pspan) d) (p : ℚ) = true :=
          (rangeContains_int_iff _ _ p).mpr ⟨h1, hpb⟩
        simp only [buildEntries, from_percent]
        rw [if_pos hhead]
    · push_neg at hpb
      obtain ⟨e, hfilter, hmem, hp1, hp2, hfrom⟩ :=
        ih (acc + pspan) hpb h2
      have hhead : ¬rangeContains (roundHalfEvenFrac acc d)
          (roundHalfEvenFrac (acc + pspan) d) (p : ℚ) = true := by
        rw [rangeContains_int_iff]
        omega
      refine ⟨e, ?_, List.mem_cons_of_mem _ hmem, hp1, hp2, ?_⟩
      · simp only [buildEntries]
        rw [List.filter_cons, if_neg hhead]
        exact hfilter
      · simp only [buildEntries, from_percent]
        rw [if_neg hhead]
        exact hfrom

/-- `pyRange lo hi` with an explicit element count. -/
theorem pyRange_eq_intRange (lo : ℤ) (n : ℕ) :
    pyRange lo (lo + n) = (List.range n).map (fun i : ℕ => lo + (i : ℤ)) := by
  unfold pyRange
  rw [add_sub_cancel_left, Int.toNat_natCast]

/-- `max` of a list extended on the right. -/
theorem pyMax_append (l : List ℤ) (x y : ℤ) (h : pyMax l = some y) :
    pyMax (l ++ [x]) = some (max y x) := by
  cases l with
  | nil => simp [pyMax] at h
  | cons a as =>
    simp only [pyMax, Option.some.injEq] at h
    simp only [List.cons_append, pyMax, List.foldl_append, h,
      List.foldl_cons, List.foldl_nil]

/-- `min` of a list extended on the right. -/
theorem pyMin_append (l : List ℤ) (x y : ℤ) (h : pyMin l = some y) :
    pyMin (l ++ [x]) = some (min y x) := by
  cases l with
  | nil => simp [pyMin] at h
  | cons a as =>
    simp only [pyMin, Option.some.injEq] at h
    simp only [List.cons_append, pyMin, List.foldl_append, h,
      List.foldl_cons, List.foldl_nil]

/-- `max(range(lo, lo + n))` for a non-empty contiguous range. -/
theorem pyMax_range (lo : ℤ) :
    ∀ n : ℕ, 1 ≤ n →
      pyMax ((List.range n).map (fun i : ℕ => lo + (i : ℤ))) =
        some (lo + n - 1) := by
  intro n
  induction n with
  | zero => omega
  | succ k ih =>
    intro _
    rcases Nat.eq_zero_or_pos k with rfl | hk
    · simp [pyMax, List.range_succ]
    · rw [List.range_succ, List.map_append, List.map_cons, List.map_nil]
      rw [pyMax_append _ _ _ (ih hk)]
      have : max (lo + (k : ℤ) - 1) (lo + (k : ℤ)) = lo + (k : ℤ) := by
        omega
      rw [this]
      congr 1
      push_cast
      ring

/-- `min(range(lo, lo + n))` for a non-empty contiguous range. -/
theorem pyMin_range (lo : ℤ) :
    ∀ n : ℕ, 1 ≤ n →
      pyMin ((List.range n).map (fun i : ℕ => lo + (i : ℤ))) = some lo := by
  intro n
  induction n with
  | zero => omega
  | succ k ih =>
    intro _
    rcases Nat.eq_zero_or_pos k with rfl | hk
    · simp [pyMin, List.range_succ]
    · rw [List.range_succ, List.map_append, List.map_cons, List.map_nil]
      rw [pyMin_append _ _ _ (ih hk)]
      congr 1
      omega

/-! ## C5 — reverse lookup coverage of the default `PercentageMap` -/

set_option maxRecDepth 8000 in
/-- C5 counterexample: `PercentageMap([0, 1, 10])` (a perfectly ordered but
non-contiguous raw set, default percent span 0–100) leaves the percents
30–99 uncovered: `from_percent(50)` raises `ValueError`, refuting the claim
that every in-range percent resolves for every ordered raw set. -/
theorem percentageMap_gap_cx :
    percentageMap [0, 1, 10] (pyRange 0 101) =
      some [(0, 0, 10), (1, 10, 20), (10, 20, 30)] ∧
      from_percent [(0, 0, 10), (1, 10, 20), (10, 20, 30)] ((50 : ℤ) : ℚ) =
        .error () := by
  constructor
  · decide
  · refine from_percent_error _ _ ?_
    intro e he hc
    fin_cases he <;>
      · rw [rangeContains_int_iff] at hc
        dsimp only at hc
        omega

/-- C5 amended: for every `PercentageMap` built over a *contiguous*
ascending raw range of `n` values, `2 ≤ n ≤ 200`, with the default percent
span 0–100 inclusive, every integer percent in `[0, 100]` is contained in
exactly one percentage sub-range, and `from_percent` succeeds with that
range's raw value.  (For `n > 200` the rounded final boundary falls back to
100 and percent 100 is uncovered; for non-contiguous sets coverage fails as
in the counterexample.) -/
theorem percentageMap_contiguous_covers (a : ℤ) (n : ℕ) (h2 : 2 ≤ n)
    (h200 : n ≤ 200) (p : ℤ) (hp0 : 0 ≤ p) (hp1 : p ≤ 100) :
    ∃ entries e,
      percentageMap (pyRange a (a + n)) (pyRange 0 101) = some entries ∧
        entries.filter (fun e => rangeContains e.2.1 e.2.2 (p : ℚ)) = [e] ∧
        e ∈ entries ∧ from_percent entries (p : ℚ) = .ok e.1 := by
  have hn1 : (1 : ℕ) ≤ n := by omega
  have hd : (0 : ℤ) < (n : ℤ) - 1 := by
    have : (2 : ℤ) ≤ (n : ℤ) := by exact_mod_cast h2
    omega
  have hmap : percentageMap (pyRange a (a + n)) (pyRange 0 101) =
      some (buildEntries 100 ((n : ℤ) - 1) 0
        ((List.range n).map (fun i : ℕ => a + (i : ℤ)))) := by
    have h101 : pyRange 0 101 =
        (List.range 101).map (fun i : ℕ => (0 : ℤ) + (i : ℤ)) := by
      have := pyRange_eq_intRange 0 101
      simpa using this
    unfold percentageMap
    rw [pyRange_eq_intRange a n, h101, pyMax_range a n hn1,
      pyMin_range a n hn1, pyMax_range 0 101 (by omega),
      pyMin_range 0 101 (by omega)]
    simp only []
    rw [if_neg (by omega : ¬(a + (n : ℤ) - 1 - a = 0))]
    have e1 : a + (n : ℤ) - 1 - a = (n : ℤ) - 1 := by ring
    have e2 : ((0 : ℤ) + (101 : ℤ) - 1 - 0) = 100 := by norm_num
    rw [e1]
    norm_num
  rw [hmap]
  have hlen : (((List.range n).map (fun i : ℕ => a + (i : ℤ))).length : ℤ) =
      (n : ℤ) := by
    simp
  have h1 : roundHalfEvenFrac 0 ((n : ℤ) - 1) ≤ p := by
    have h0 : roundHalfEvenFrac 0 ((n : ℤ) - 1) = 0 := by
      have := roundFrac_mul 0 ((n : ℤ) - 1) hd
      simpa using this
    omega
  have h2' : p < roundHalfEvenFrac
      (0 + (((List.range n).map (fun i : ℕ => a + (i : ℤ))).length : ℤ) * 100)
      ((n : ℤ) - 1) := by
    rw [hlen]
    have hge : (101 : ℤ) ≤ roundHalfEvenFrac (0 + (n : ℤ) * 100)
        ((n : ℤ) - 1) := by
      have := roundFrac_ge 100 (0 + (n : ℤ) * 100) ((n : ℤ) - 1) hd (by
        have hn200 : (n : ℤ) ≤ 200 := by exact_mod_cast h200
        nlinarith)
      omega
    omega
  obtain ⟨e, hfilter, hmem, _, _, hfrom⟩ :=
    buildEntries_filter_single 100 ((n : ℤ) - 1) hd (by norm_num) p
      ((List.range n).map (fun i : ℕ => a + (i : ℤ))) 0 h1 h2'
  exact ⟨_, e, rfl, hfilter, hmem, hfrom⟩

/-- C5 witness: the amended statement at the Chrontel raw set
`range(1, 18)` (17 contiguous values) and percent 50. -/
theorem percentageMap_contiguous_covers_witness :
    (2 ≤ 17 ∧ 17 ≤ 200 ∧ (0 : ℤ) ≤ 50 ∧ (50 : ℤ) ≤ 100) ∧
      ∃ entries e,
        percentageMap (pyRange 1 (1 + (17 : ℕ))) (pyRange 0 101) =
            some entries ∧
          entries.filter (fun e => rangeContains e.2.1 e.2.2
            ((50 : ℤ) : ℚ)) = [e] ∧
          e ∈ entries ∧ from_percent entries ((50 : ℤ) : ℚ) = .ok e.1 :=
  ⟨⟨by norm_num, by norm_num, by norm_num, by norm_num⟩,
    percentageMap_contiguous_covers 1 17 (by norm_num) (by norm_num) 50
      (by norm_num) (by norm_num)⟩

/-! ## C6 — round trip through the midpoint representative -/

/-- Twice the sum of `range(lo, lo + n)`. -/
theorem intRange_sum (lo : ℤ) :
    ∀ n : ℕ, 2 * ((List.range n).map (fun i : ℕ => lo + (i : ℤ))).sum =
      (n : ℤ) * (2 * lo + n - 1) := by
  intro n
  induction n with
  | zero => simp
  | succ k ih =>
    rw [List.range_succ, List.map_append, List.map_cons, List.map_nil,
      List.sum_append, List.sum_cons, List.sum_nil]
    push_cast
    push_cast at ih
    linear_combination ih

/-- The mean of an odd-length integer range is its central integer. -/
theorem rangeMean_odd (a b j : ℤ) (hj : 0 ≤ j) (hab : b - a = 2 * j + 1) :
    rangeMean a b = ((a + j : ℤ) : ℚ) := by
  unfold rangeMean pyRange
  have hn : ((b - a).toNat : ℤ) = 2 * j + 1 := by
    rw [Int.toNat_of_nonneg (by omega)]
    omega
  have hsum := intRange_sum a (b - a).toNat
  rw [hn] at hsum
  have hlen : (((List.range (b - a).toNat).map
      (fun i : ℕ => a + (i : ℤ))).length : ℚ) = 2 * (j : ℚ) + 1 := by
    simp only [List.length_map, List.length_range]
    exact_mod_cast congrArg (fun z : ℤ => (z : ℚ)) hn
  rw [hlen]
  have hne : (2 * (j : ℚ) + 1) ≠ 0 := by positivity
  rw [div_eq_iff hne]
  have hq : (2 : ℚ) * (((List.range (b - a).toNat).map
      (fun i : ℕ => a + (i : ℤ))).sum : ℚ) =
      (2 * (j : ℚ) + 1) * (2 * (a : ℚ) + (2 * (j : ℚ) + 1) - 1) := by
    exact_mod_cast congrArg (fun z : ℤ => (z : ℚ)) hsum
  push_cast
  push_cast at hq
  linear_combination hq / 2

/-- `from_percent` finds the entry whose range contains an integral value
(the preceding ranges all stop at or before this entry's start). -/
theorem buildEntries_from_percent_at (pspan d : ℤ) (hd : 0 < d)
    (hspan : 0 ≤ pspan) (q : ℚ) :
    ∀ (raws : List ℤ) (acc : ℤ) (e : ℤ × ℤ × ℤ),
      e ∈ buildEntries pspan d acc raws →
      ((e.2.1 : ℚ) ≤ q) → (q < (e.2.2 : ℚ)) → q.den = 1 →
      from_percent (buildEntries pspan d acc raws) q = .ok e.1 := by
  intro raws
  induction raws with
  | nil => intro acc e he; simp [buildEntries] at he
  | cons r rest ih =>
    intro acc e he hq1 hq2 hqden
    rcases List.mem_cons.mp he with rfl | hmem
    · have hc : rangeContains (roundHalfEvenFrac acc d)
          (roundHalfEvenFrac (acc + pspan) d) q = true := by
        simp only [rangeContains, Bool.and_eq_true, decide_eq_true_eq]
        exact ⟨⟨hq1, hq2⟩, hqden⟩
      simp only [buildEntries, from_percent]
      rw [if_pos hc]
    · have hge : roundHalfEvenFrac (acc + pspan) d ≤ e.2.1 :=
        buildEntries_start_ge pspan d hd hspan rest (acc + pspan) e hmem
    -- the head range stops at or before this entry's start, so it cannot
    -- contain `q`
      have hc : ¬rangeContains (roundHalfEvenFrac acc d)
          (roundHalfEvenFrac (acc + pspan) d) q = true := by
        simp only [rangeContains, Bool.and_eq_true, decide_eq_true_eq, not_and]
        intro hcon _
        exfalso
        have h1 : ((roundHalfEvenFrac (acc + pspan) d : ℤ) : ℚ) ≤
            (e.2.1 : ℚ) := by exact_mod_cast hge
        linarith [hcon.2]
      simp only [buildEntries, from_percent]
      rw [if_neg hc]
      exact ih (acc + pspan) e hmem hq1 hq2 hqden

/-- `min` of a list never exceeds its `max`. -/
theorem pyMin_le_pyMax :
    ∀ (l : List ℤ) (x y : ℤ), pyMin l = some x → pyMax l = some y →
      x ≤ y := by
  have aux1 : ∀ (as : List ℤ) (a : ℤ), as.foldl min a ≤ a := by
    intro as
    induction as with
    | nil => intro a; exact le_refl a
    | cons b bs ih =>
      intro a
      exact le_trans (ih (min a b)) (min_le_left a b)
  have aux2 : ∀ (as : List ℤ) (a : ℤ), a ≤ as.foldl max a := by
    intro as
    induction as with
    | nil => intro a; exact le_refl a
    | cons b bs ih =>
      intro a
      exact le_trans (le_max_left a b) (ih (max a b))
  rintro (_ | ⟨a, as⟩) x y hx hy
  · exact absurd hx (by simp [pyMin])
  · simp only [pyMin, pyMax, Option.some.injEq] at hx hy
    subst hx
    subst hy
    exact le_trans (aux1 as a) (aux2 as a)

set_option maxRecDepth 8000 in
/-- C6 counterexample: in the repository's own
`ChrontelCH7511B.VALUES = PercentageMap(range(1, 18), range(30, 101))`, raw
value 1 owns the range `[30, 34)` whose mean is `31.5`; a half-integral
value is not a member of any Python `range`, so
`from_percent(mean(map[1]))` raises `ValueError` instead of returning 1 —
refuting the round-trip claim as stated. -/
theorem from_percent_mean_cx :
    chrontelValues = some chrontelEntries ∧
      (1, 30, 34) ∈ chrontelEntries ∧
      rangeMean 30 34 = 63 / 2 ∧
      from_percent chrontelEntries (63 / 2) = .error () := by
  refine ⟨by decide, by decide, ?_, ?_⟩
  · rw [show rangeMean 30 34 = ((30 + 31 + 32 + 33 : ℤ) : ℚ) / (4 : ℚ) by
      unfold rangeMean
      rw [show pyRange 30 34 = [(30 : ℤ), 31, 32, 33] from by decide]
      norm_num]
    norm_num
  · refine from_percent_nonint _ _ ?_
    intro hden
    have hk := (Rat.den_eq_one_iff _).mp hden
    set k := (63 / 2 : ℚ).num with hkdef
    have h2k : (2 : ℚ) * (k : ℚ) = 63 := by
      rw [hk]
      norm_num
    have h2k' : (2 * k : ℤ) = 63 := by exact_mod_cast h2k
    omega

/-- C6 amended: for every constructible `PercentageMap` and every entry
whose percentage sub-range has odd length, the mean of the sub-range is its
central integer and `from_percent` of that mean returns the entry's raw
value.  (Even-length sub-ranges — present in the shipped Chrontel map —
have a half-integral mean on which `from_percent` raises `ValueError`, as
the counterexample shows.) -/
theorem from_percent_mean_odd (raw percent : List ℤ)
    (entries : List (ℤ × ℤ × ℤ))
    (hmap : percentageMap raw percent = some entries) (e : ℤ × ℤ × ℤ)
    (he : e ∈ entries) (j : ℤ) (hj : 0 ≤ j)
    (hlen : e.2.2 - e.2.1 = 2 * j + 1) :
    rangeMean e.2.1 e.2.2 = ((e.2.1 + j : ℤ) : ℚ) ∧
      from_percent entries (rangeMean e.2.1 e.2.2) = .ok e.1 := by
  have hmean := rangeMean_odd e.2.1 e.2.2 j hj hlen
  refine ⟨hmean, ?_⟩
  rw [hmean]
  unfold percentageMap at hmap
  rcases hrmax : pyMax raw with _ | rmax
  · rw [hrmax] at hmap
    simp at hmap
  rw [hrmax] at hmap
  rcases hrmin : pyMin raw with _ | rmin
  · rw [hrmin] at hmap
    simp at hmap
  rw [hrmin] at hmap
  rcases hpmax : pyMax percent with _ | pmax
  · rw [hpmax] at hmap
    simp at hmap
  rw [hpmax] at hmap
  rcases hpmin : pyMin percent with _ | pmin
  · rw [hpmin] at hmap
    simp at hmap
  rw [hpmin] at hmap
  have hmap' : (if rmax - rmin = 0 then (none : Option (List (ℤ × ℤ × ℤ)))
      else some (buildEntries (pmax - pmin) (rmax - rmin)
        (pmin * (rmax - rmin)) raw)) = some entries := hmap
  split_ifs at hmap' with hz
  have hentries : entries =
      buildEntries (pmax - pmin) (rmax - rmin) (pmin * (rmax - rmin))
        raw := by
    exact (Option.some.inj hmap').symm
  have hd : 0 < rmax - rmin := by
    have := pyMin_le_pyMax raw rmin rmax hrmin hrmax
    omega
  have hspan : 0 ≤ pmax - pmin := by
    have := pyMin_le_pyMax percent pmin pmax hpmin hpmax
    omega
  subst hentries
  refine buildEntries_from_percent_at (pmax - pmin) (rmax - rmin) hd hspan
    _ raw _ e he ?_ ?_ (Rat.den_intCast _)
  · have h1 : e.2.1 ≤ e.2.1 + j := by omega
    exact_mod_cast h1
  · have h1 : e.2.1 + j < e.2.2 := by omega
    exact_mod_cast h1

set_option maxRecDepth 8000 in
/-- C6 witness: in the Chrontel map, raw value 4 owns `[43, 48)` (odd
length 5); the mean is 45 and `from_percent(45)` returns 4. -/
theorem from_percent_mean_odd_witness :
    percentageMap (pyRange 1 18) (pyRange 30 101) = some chrontelEntries ∧
      (4, 43, 48) ∈ chrontelEntries ∧ (0 : ℤ) ≤ 2 ∧
      (48 : ℤ) - 43 = 2 * 2 + 1 ∧
      (rangeMean 43 48 = ((45 : ℤ) : ℚ) ∧
        from_percent chrontelEntries (rangeMean 43 48) = .ok 4) :=
  ⟨by decide, by decide, by norm_num, by norm_num,
    from_percent_mean_odd (pyRange 1 18) (pyRange 30 101) chrontelEntries
      (by decide) (4, 43, 48) (by decide) 2 (by norm_num) (by norm_num)⟩
